import Mathlib

/-!
Shallow embedding of the remote-memory core of the `walkoflife` repository
(src/memory.rs and src/utils.rs), together with theorems settling the
specification claims about it.

The target process's memory is modelled as a partial map from byte addresses
to bytes.  A `process_vm_readv` transfer copies the longest readable prefix of
the requested region and fails only when nothing at all can be copied.
Fallible operations return `Rd`, distinguishing an I/O error (the `Err`
variant of `nix::Result` in the source) from a Rust panic (an out-of-bounds
vector index or a failed `unwrap` in the source); a panic unwinds through all
callers, so traversal entry points return `Outcome`, which additionally has a
constructor for exhausting the step budget of an a-priori unbounded loop.
-/

namespace WalkOfLife

/-- A byte-addressed view of the target process's address space: `byte a` is
`some b` when address `a` is mapped and readable with content `b`. -/
structure Mem where
  byte : Nat → Option (Fin 256)

/-- A raw byte buffer. -/
abbrev Bytes := List (Fin 256)

/-- How a fallible operation went wrong: an I/O error (`Err` from
`nix::Result`) or a Rust panic. -/
inductive MemErr where
  | io
  | panicked
  deriving DecidableEq

/-- Result of a fallible memory operation. -/
inductive Rd (α : Type) where
  | ok (a : α)
  | error (e : MemErr)
  deriving DecidableEq

/-- Result of a traversal entry point: a returned value, the function's own
`Err` variant, a panic unwinding through it, or exhaustion of the step budget
used to model its unbounded loop. -/
inductive Outcome (α : Type) where
  | ok (a : α)
  | err
  | panicked
  | spin
  deriving DecidableEq

/-- The bytes actually copied by a transfer of `len` bytes starting at `addr`:
the longest readable prefix of the region. -/
def copyBytes (m : Mem) : Nat → Nat → Bytes
  | _, 0 => []
  | addr, len + 1 =>
    match m.byte addr with
    | none => []
    | some b => b :: copyBytes m (addr + 1) len

/-- Model of one `process_vm_readv` call: copies the longest readable prefix
of the requested region; reports an I/O error when a non-empty request can
copy nothing at all; a zero-length request trivially succeeds. -/
def transferBytes (m : Mem) (addr len : Nat) : Rd Bytes :=
  if len = 0 then .ok []
  else
    match m.byte addr with
    | none => .error .io
    | some _ => .ok (copyBytes m addr len)

/-- Split a buffer into at most `n` groups of exactly `s` bytes, discarding a
trailing partial group (`set_len(bytes_copied / bytes_per_prim)` in the
source). -/
def chunksN (s : Nat) : Nat → Bytes → List Bytes
  | 0, _ => []
  | n + 1, l => if s ≤ l.length ∧ 0 < s then l.take s :: chunksN s n (l.drop s) else []

/-- Model of `read_prims` from src/memory.rs: read `n` primitives of size `s` starting
at `offset`.  An element type `T` is represented by its size `s` and each
element by its raw little-endian byte group. -/
def read_prims (m : Mem) (s offset n : Nat) : Rd (List Bytes) :=
  match transferBytes m offset (n * s) with
  | .error e => .error e
  | .ok bs => .ok (chunksN s n bs)

/-- Little-endian value of a byte group. -/
def leVal : Bytes → Nat
  | [] => 0
  | b :: rest => b.val + 256 * leVal rest

/-- Value of a byte group as an `i16` (two's complement). -/
def i16Val (c : Bytes) : Int :=
  if leVal c < 0x8000 then (leVal c : Int) else (leVal c : Int) - 0x10000

/-- Cast `num_verts as usize` on a 64-bit host: two's-complement cast of an `i16`
value to an unsigned machine word. -/
def i16AsUsize (v : Int) : Nat := (v % (2 ^ 64)).toNat

/-- One `read_prims::<u32>(pid, addr, 1)?[0] as usize` step: the pointer-sized
read used throughout the source.  The `[0]` index on the result of a short
read (zero whole elements copied) is a panic in the source, not an `Err`. -/
def readU32 (m : Mem) (addr : Nat) : Rd Nat :=
  match read_prims m 4 addr 1 with
  | .error e => .error e
  | .ok [] => .error .panicked
  | .ok (c :: _) => .ok (leVal c)

/-- The offset-following loop of `get_pointer_path`. -/
def ppLoop (m : Mem) : Nat → List Nat → Rd Nat
  | cur, [] => .ok cur
  | cur, off :: rest =>
    match readU32 m (cur + off) with
    | .error e => .error e
    | .ok nxt => ppLoop m nxt rest

/-- Model of `get_pointer_path` from src/memory.rs: read a 32-bit pointer at `base`,
then for each offset add it to the current address and read again. -/
def get_pointer_path (m : Mem) (base : Nat) (offsets : Option (List Nat)) : Rd Nat :=
  match readU32 m base with
  | .error e => .error e
  | .ok cur =>
    match offsets with
    | some offs => ppLoop m cur offs
    | none => .ok cur

/-- Modelled from the spec (§4.3/§8): the iterated dereference
`a0 = *base; a1 = *(a0+o1); ...; result = *(a_{n-1}+on)`, each hop having to
succeed before the next is attempted. -/
def iterDeref (m : Mem) (base : Nat) (offs : List Nat) : Rd Nat :=
  offs.foldl
    (fun acc o =>
      match acc with
      | .error e => .error e
      | .ok a => readU32 m (a + o))
    (readU32 m base)

/-- Every byte of the region `[addr, addr+len)` is mapped and readable. -/
def readable (m : Mem) (addr len : Nat) : Prop :=
  ∀ i, i < len → (m.byte (addr + i)).isSome = true

instance (m : Mem) (addr len : Nat) : Decidable (readable m addr len) :=
  Nat.decidableBallLT len fun i _ => (m.byte (addr + i)).isSome = true

/-- Build a memory image from an association list of byte contents. -/
def memOf (l : List (Nat × Fin 256)) : Mem :=
  ⟨fun a => (l.find? (fun p => p.1 == a)).map (fun p => p.2)⟩

/-- The four little-endian bytes of a `u32` value laid down at `addr`. -/
def u32At (addr v : Nat) : List (Nat × Fin 256) :=
  [(addr, ⟨v % 256, by omega⟩), (addr + 1, ⟨v / 256 % 256, by omega⟩),
   (addr + 2, ⟨v / 65536 % 256, by omega⟩), (addr + 3, ⟨v / 16777216 % 256, by omega⟩)]

/-- The two little-endian bytes of an `i16` bit pattern laid down at `addr`. -/
def i16At (addr v : Nat) : List (Nat × Fin 256) :=
  [(addr, ⟨v % 256, by omega⟩), (addr + 1, ⟨v / 256 % 256, by omega⟩)]

/-- Raw bytes (each reduced mod 256) laid down consecutively from `addr`. -/
def bytesAt : Nat → List Nat → List (Nat × Fin 256)
  | _, [] => []
  | a, v :: rest => (a, ⟨v % 256, by omega⟩) :: bytesAt (a + 1) rest

/-- A UTF-8 continuation byte (`10xxxxxx`). -/
def isCont (b : Fin 256) : Bool :=
  decide (0x80 ≤ b.val) && decide (b.val ≤ 0xBF)

/-- Length of the UTF-8 sequence starting at the head of the buffer, `none`
if the head does not start a complete valid sequence.  This mirrors the
validity rules of Rust's `String::from_utf8` (shortest-form encodings only,
no surrogates, max `U+10FFFF`). -/
def utf8SeqLen : Bytes → Option Nat
  | [] => none
  | b :: rest =>
    if b.val ≤ 0x7F then some 1
    else if b.val < 0xC2 then none
    else if b.val ≤ 0xDF then
      match rest with
      | c1 :: _ => if isCont c1 then some 2 else none
      | [] => none
    else if b.val ≤ 0xEF then
      match rest with
      | c1 :: c2 :: _ =>
        if (decide ((if b.val = 0xE0 then 0xA0 else 0x80) ≤ c1.val) &&
              decide (c1.val ≤ (if b.val = 0xED then 0x9F else 0xBF))) && isCont c2 then
          some 3
        else none
      | _ => none
    else if b.val ≤ 0xF4 then
      match rest with
      | c1 :: c2 :: c3 :: _ =>
        if ((decide ((if b.val = 0xF0 then 0x90 else 0x80) ≤ c1.val) &&
              decide (c1.val ≤ (if b.val = 0xF4 then 0x8F else 0xBF))) && isCont c2) &&
            isCont c3 then
          some 4
        else none
      | _ => none
    else none

/-- Fuel-bounded greedy UTF-8 validation: number of initial bytes forming
whole valid sequences before the first invalid or incomplete one. -/
def utf8ValidUpToF : Nat → Bytes → Nat
  | 0, _ => 0
  | fuel + 1, l =>
    match utf8SeqLen l with
    | none => 0
    | some k => k + utf8ValidUpToF fuel (l.drop k)

/-- Model of `Utf8Error::valid_up_to` of Rust's `String::from_utf8`: the length of the
longest fully-valid prefix.  Each sequence consumes at least one byte, so the
buffer's length is enough fuel. -/
def utf8ValidUpTo (l : Bytes) : Nat := utf8ValidUpToF l.length l

/-- Truncate a byte buffer at its first null byte, if any (the
`position(|&x| x==0)` step of `read_string`). -/
def truncAtNull (bs : Bytes) : Bytes :=
  match bs.findIdx? (fun b => b == 0) with
  | some idx => bs.take idx
  | none => bs

/-- Model of `read_string` from src/memory.rs: read up to `n` bytes, truncate at the
first null, decode as UTF-8; on a decoding error, re-read only the valid
prefix from memory and decode that.  A Rust `String` is represented by its
(valid UTF-8) byte contents; the two `unwrap()` calls on the re-read path are
panics when they fail. -/
def read_string (m : Mem) (offset n : Nat) : Rd Bytes :=
  match read_prims m 1 offset n with
  | .error e => .error e
  | .ok cs =>
    if utf8ValidUpTo (truncAtNull cs.flatten) = (truncAtNull cs.flatten).length then
      .ok (truncAtNull cs.flatten)
    else
      match read_prims m 1 offset (utf8ValidUpTo (truncAtNull cs.flatten)) with
      | .error _ => .error .panicked
      | .ok cs2 =>
        if utf8ValidUpTo cs2.flatten = cs2.flatten.length then .ok cs2.flatten
        else .error .panicked

/-- Memory image holding the bytes of `"hi\0garbage"` at address 0. -/
def memHi : Mem := memOf (bytesAt 0 [104, 105, 0, 103, 97, 114, 98, 97, 103, 101])

/-- Memory image holding a valid two-byte prefix (`"hi"`), then an
undecodable byte (`0xFF`) and a trailing byte, with no null terminator. -/
def memBad : Mem := memOf (bytesAt 0 [104, 105, 255, 65])

/-- An entirely unreadable memory image. -/
def memEmpty : Mem := memOf []

/-- Eight readable bytes at address 100: a fully readable two-`u32` region. -/
def memW3 : Mem := memOf (bytesAt 100 [1, 2, 3, 4, 5, 6, 7, 8])

/-- Only five readable bytes at address 100: a short read for a two-`u32`
request. -/
def memW5 : Mem := memOf (bytesAt 100 [9, 8, 7, 6, 5])

/-- A single `u32` value `0x1234` stored at address 100. -/
def memPtr : Mem := memOf (u32At 100 0x1234)

/-- Model of `format!("unknown_{}", next_brother)`: the placeholder display name
synthesized for a node whose name index is outside the name table. -/
def placeholderName (node : Nat) : String := "unknown_" ++ Nat.repr node

/-- Model of `object_names.get(name_index)` with the out-of-range fallback used by both
walkers. -/
def lookupName (object_names : List String) (name_index node : Nat) : String :=
  match object_names[name_index]? with
  | some namestr => namestr
  | none => placeholderName node

/-- Registry `HashMap<String, usize>` modelled as an insertion-ordered association
list. -/
abbrev Registry := List (String × Nat)

/-- Model of `HashMap::insert`: replace the value of an existing key in place,
otherwise append the new pair. -/
def insertReg (reg : Registry) (k : String) (v : Nat) : Registry :=
  if reg.any (fun p => p.1 == k) then
    reg.map (fun p => if p.1 == k then (k, v) else p)
  else reg ++ [(k, v)]

/-- Registry `HashMap<String, Vec<usize>>` modelled as an insertion-ordered
association list. -/
abbrev RegistryM := List (String × List Nat)

/-- The `contains_key`/`get_mut().push`/`insert(vec![..])` accumulation of
`get_active_super_object_ai_model_names`. -/
def insertRegM (reg : RegistryM) (k : String) (v : Nat) : RegistryM :=
  if reg.any (fun p => p.1 == k) then
    reg.map (fun p => if p.1 == k then (p.1, p.2 ++ [v]) else p)
  else reg ++ [(k, [v])]

/-- The sibling-chain loop of `get_active_super_object_names`, with an
explicit step budget (`fuel`) standing for the source's unbounded `loop`.
An `Err` from either pointer-path resolution breaks out of the loop, after
which the accumulated registry is returned as `Ok`. -/
def walkNamesLoop (m : Mem) (object_names : List String) :
    Nat → Registry → Nat → Outcome Registry
  | 0, _, _ => .spin
  | fuel + 1, reg, next_brother =>
    if next_brother ≠ 0 then
      match get_pointer_path m (next_brother + 4) (some [4, 8]) with
      | .error .panicked => .panicked
      | .error .io => .ok reg
      | .ok name_index =>
        match get_pointer_path m (next_brother + 0x14) none with
        | .error .panicked => .panicked
        | .error .io =>
          .ok (insertReg reg (lookupName object_names name_index next_brother) next_brother)
        | .ok nxt =>
          walkNamesLoop m object_names fuel
            (insertReg reg (lookupName object_names name_index next_brother) next_brother) nxt
    else .ok reg

/-- Constant `off_dynam_world` from `get_active_super_object_names`. -/
def OFF_DYNAM_WORLD : Nat := 0x500FD0

/-- The `match super_object { 0 => resolve the dynamic world, val => val }`
prelude shared by both walkers. -/
def resolveRoot (m : Mem) (super_object : Nat) : Rd Nat :=
  match super_object with
  | 0 => get_pointer_path m OFF_DYNAM_WORLD (some [8])
  | val => .ok val

/-- Model of `get_active_super_object_names` from src/utils.rs. -/
def get_active_super_object_names (m : Mem) (object_names : List String)
    (super_object fuel : Nat) : Outcome Registry :=
  match resolveRoot m super_object with
  | .error .panicked => .panicked
  | .error .io => .err
  | .ok root => walkNamesLoop m object_names fuel [] root

/-- The sibling-chain loop of `get_active_super_object_ai_model_names`
(name path `[4, 4]`, multi-valued accumulation). -/
def walkAiLoop (m : Mem) (ai_model_names : List String) :
    Nat → RegistryM → Nat → Outcome RegistryM
  | 0, _, _ => .spin
  | fuel + 1, reg, next_brother =>
    if next_brother ≠ 0 then
      match get_pointer_path m (next_brother + 4) (some [4, 4]) with
      | .error .panicked => .panicked
      | .error .io => .ok reg
      | .ok name_index =>
        match get_pointer_path m (next_brother + 0x14) none with
        | .error .panicked => .panicked
        | .error .io =>
          .ok (insertRegM reg (lookupName ai_model_names name_index next_brother) next_brother)
        | .ok nxt =>
          walkAiLoop m ai_model_names fuel
            (insertRegM reg (lookupName ai_model_names name_index next_brother) next_brother) nxt
    else .ok reg

/-- Model of `get_active_super_object_ai_model_names` from src/utils.rs. -/
def get_active_super_object_ai_model_names (m : Mem) (ai_model_names : List String)
    (super_object fuel : Nat) : Outcome RegistryM :=
  match resolveRoot m super_object with
  | .error .panicked => .panicked
  | .error .io => .err
  | .ok root => walkAiLoop m ai_model_names fuel [] root

/-- The sibling chain starting at `node` reaches the null sentinel or a
failing next-sibling read within `k` hops (finite, acyclic chain). -/
def chainEnds (m : Mem) : Nat → Nat → Bool
  | 0, node => node == 0
  | k + 1, node =>
    node == 0 ||
      match get_pointer_path m (node + 0x14) none with
      | .ok nxt => chainEnds m k nxt
      | .error _ => true

/-- A three-node sibling chain 100 → 200 → 300 → null with name indices
0, 1, 2 reachable through the `[4, 8]` name path. -/
def chainMemA : Mem := memOf
  (u32At (100 + 4) 0x1000 ++ u32At (0x1000 + 4) 0x1100 ++ u32At (0x1100 + 8) 0 ++
   u32At (200 + 4) 0x2000 ++ u32At (0x2000 + 4) 0x2100 ++ u32At (0x2100 + 8) 1 ++
   u32At (300 + 4) 0x3000 ++ u32At (0x3000 + 4) 0x3100 ++ u32At (0x3100 + 8) 2 ++
   u32At (100 + 0x14) 200 ++ u32At (200 + 0x14) 300 ++ u32At (300 + 0x14) 0)

/-- The same chain with the middle node's next-sibling pointer unreadable. -/
def chainMemB : Mem := memOf
  (u32At (100 + 4) 0x1000 ++ u32At (0x1000 + 4) 0x1100 ++ u32At (0x1100 + 8) 0 ++
   u32At (200 + 4) 0x2000 ++ u32At (0x2000 + 4) 0x2100 ++ u32At (0x2100 + 8) 1 ++
   u32At (300 + 4) 0x3000 ++ u32At (0x3000 + 4) 0x3100 ++ u32At (0x3100 + 8) 2 ++
   u32At (100 + 0x14) 200 ++ u32At (300 + 0x14) 0)

/-- A two-node chain for the AI-model walker (`[4, 4]` name path), node 300
having a readable name path but an unreadable next-sibling pointer. -/
def aiMem : Mem := memOf
  (u32At (100 + 4) 0x1000 ++ u32At (0x1000 + 4) 0x1100 ++ u32At (0x1100 + 4) 0 ++
   u32At (100 + 0x14) 200 ++
   u32At (200 + 4) 0x2000 ++ u32At (0x2000 + 4) 0x2100 ++ u32At (0x2100 + 4) 0 ++
   u32At (200 + 0x14) 0 ++
   u32At (300 + 4) 0x3000 ++ u32At (0x3000 + 4) 0x3100 ++ u32At (0x3100 + 4) 0)

/-- A one-node cycle: node 256's next-sibling pointer points back to 256. -/
def memCyc : Mem := memOf
  (u32At (256 + 4) 0x1000 ++ u32At (0x1000 + 4) 0x1100 ++ u32At (0x1100 + 8) 0 ++
   u32At (0x1100 + 4) 0 ++ u32At (256 + 0x14) 256)

/-- A node at address 7 whose name index (3) is out of range of the supplied
table, whose only entry is the string `"unknown_7"`. -/
def memColl : Mem := memOf
  (u32At (7 + 4) 0x1000 ++ u32At (0x1000 + 4) 0x1100 ++ u32At (0x1100 + 8) 3)

/-- Output `HashMap<usize, Vec<f32>>` modelled as an insertion-ordered association
list from vertex-buffer addresses to vertex byte groups. -/
abbrev VertMap := List (Nat × List Bytes)

/-- Model of `HashMap::insert` for the vertex map. -/
def insertVerts (ret : VertMap) (k : Nat) (v : List Bytes) : VertMap :=
  if ret.any (fun p => p.1 == k) then
    ret.map (fun p => if p.1 == k then (p.1, v) else p)
  else ret ++ [(k, v)]

/-- The per-record body of `get_family_po_vert_offsets`: `.ok none` means the
record was skipped (a tolerated per-record failure or an ineligible
LOD/type), `.ok (some (addr, verts))` a processed record, `.err` the
function's hard `Err` return, `.panicked` an index panic on a short read. -/
def famRecord (m : Mem) (cur_entry : Nat) : Outcome (Option (Nat × List Bytes)) :=
  match get_pointer_path m (cur_entry + 4) (some [0]) with
  | .error .panicked => .panicked
  | .error .io => .ok none
  | .ok off_visualset =>
    match read_prims m 2 (off_visualset + 4) 2 with
    | .error _ => .ok none
    | .ok (c0 :: c1 :: _) =>
      if 0 < i16Val c0 ∧ i16Val c1 = 0 then
        match get_pointer_path m (off_visualset + 0xC) (some [0]) with
        | .error .panicked => .panicked
        | .error .io => .ok none
        | .ok off_first_mesh =>
          match get_pointer_path m off_first_mesh none with
          | .error .panicked => .panicked
          | .error .io => .ok none
          | .ok off_verts =>
            match read_prims m 2 (off_first_mesh + 0x2C) 1 with
            | .error _ => .err
            | .ok [] => .panicked
            | .ok (cv :: _) =>
              match read_prims m 4 off_verts (3 * i16AsUsize (i16Val cv)) with
              | .error _ => .err
              | .ok vs => .ok (some (off_verts, vs))
      else .ok none
    | .ok _ => .panicked

/-- The `for i in 0..num_entries` loop of `get_family_po_vert_offsets`,
including the `indices.contains(&i) == keep_instead` filter. -/
def famLoop (m : Mem) (keep_instead : Bool) (indices : List Nat) (first_entry : Nat) :
    List Nat → VertMap → Outcome VertMap
  | [], ret => .ok ret
  | i :: rest, ret =>
    if indices.contains i = keep_instead then
      famLoop m keep_instead indices first_entry rest ret
    else
      match famRecord m (first_entry + i * 0x14) with
      | .ok none => famLoop m keep_instead indices first_entry rest ret
      | .ok (some (k, v)) => famLoop m keep_instead indices first_entry rest (insertVerts ret k v)
      | .err => .err
      | .panicked => .panicked
      | .spin => .spin

/-- Model of `get_family_po_vert_offsets` from src/utils.rs. -/
def get_family_po_vert_offsets (m : Mem) (offset_family : Nat) (keep_instead : Bool)
    (indices : List Nat) : Outcome VertMap :=
  match get_pointer_path m (offset_family + 0x1C) none with
  | .error .panicked => .panicked
  | .error .io => .err
  | .ok off_default_objects_table =>
    match read_prims m 4 (off_default_objects_table + 4) 3 with
    | .error _ => .err
    | .ok (c0 :: _ :: c2 :: _) =>
      famLoop m keep_instead indices (leVal c0) (List.range (leVal c2)) []
    | .ok _ => .panicked

/-- A family at 0x4000 whose default-objects table holds two records, both
fully readable and eligible, with vertex buffers at 0x3500 and 0x4500. -/
def memFam : Mem := memOf
  (u32At (0x4000 + 0x1C) 0x2000 ++
   u32At (0x2000 + 4) 0x3000 ++ u32At (0x2000 + 8) 0 ++ u32At (0x2000 + 0xC) 2 ++
   u32At (0x3000 + 4) 0x3100 ++ u32At 0x3100 0x3200 ++
   i16At (0x3200 + 4) 1 ++ i16At (0x3200 + 6) 0 ++
   u32At (0x3200 + 0xC) 0x3300 ++ u32At 0x3300 0x3400 ++
   u32At 0x3400 0x3500 ++ i16At (0x3400 + 0x2C) 1 ++
   u32At 0x3500 11 ++ u32At (0x3500 + 4) 22 ++ u32At (0x3500 + 8) 33 ++
   u32At (0x3014 + 4) 0x4100 ++ u32At 0x4100 0x4200 ++
   i16At (0x4200 + 4) 1 ++ i16At (0x4200 + 6) 0 ++
   u32At (0x4200 + 0xC) 0x4300 ++ u32At 0x4300 0x4400 ++
   u32At 0x4400 0x4500 ++ i16At (0x4400 + 0x2C) 1 ++
   u32At 0x4500 44 ++ u32At (0x4500 + 4) 55 ++ u32At (0x4500 + 8) 66)

/-- Partial family images for exercising each failure point of a record at
0x3000 and of the table of a family at 0x4000. -/
def famD : List (Nat × Fin 256) := u32At (0x3000 + 4) 0x3100 ++ u32At 0x3100 0x3200

def famE : List (Nat × Fin 256) := famD ++ i16At (0x3200 + 4) 1 ++ i16At (0x3200 + 6) 0

def famF : List (Nat × Fin 256) := famE ++ u32At (0x3200 + 0xC) 0x3300 ++ u32At 0x3300 0x3400

def famG : List (Nat × Fin 256) := famF ++ u32At 0x3400 0x3500

def famH : List (Nat × Fin 256) := famG ++ i16At (0x3400 + 0x2C) 1

/-- Family base pointer readable but the table header unreadable. -/
def memFamHdr : Mem := memOf (u32At (0x4000 + 0x1C) 0x2000)

/-- Record readable up to the visual set, whose LOD/type word is unreadable. -/
def memFamD : Mem := memOf famD

/-- Record eligible but the mesh-descriptor hop fails. -/
def memFamE : Mem := memOf famE

/-- Mesh descriptor found but the vertex-pointer read fails. -/
def memFamF : Mem := memOf famF

/-- Vertex pointer found but the vertex-count read fails. -/
def memFamG : Mem := memOf famG

/-- Vertex count found but the vertex buffer itself is unreadable. -/
def memFamH : Mem := memOf famH

/-- The name-lookup part of one `read_object_names_table` iteration: `Err`
from the name-pointer hop or the string read is replaced by the empty
string; a panic propagates. -/
def tableName (m : Mem) (cur_offset : Nat) : Rd Bytes :=
  match get_pointer_path m (cur_offset + 0xC) none with
  | .error .panicked => .error .panicked
  | .error .io => .ok []
  | .ok off_name =>
    match read_string m off_name 64 with
    | .error .panicked => .error .panicked
    | .error .io => .ok []
    | .ok s => .ok s

/-- The `cur_offset` update of `read_object_names_table`: move to the next
node only when the next-pointer hop succeeded with a positive value. -/
def nextStep (cur : Nat) : Rd Nat → Nat
  | .ok nxt => if 0 < nxt then nxt else cur
  | .error _ => cur

/-- The `for _j in 0..num_names` loop of `read_object_names_table`.  The
next-pointer resolution runs first in the source, so a panic there
propagates before the name is pushed. -/
def rontLoop (m : Mem) : Nat → Nat → List Bytes → Outcome (List Bytes)
  | 0, _, acc => .ok acc
  | count + 1, cur_offset, acc =>
    if get_pointer_path m cur_offset none = .error .panicked then .panicked
    else
      match tableName m cur_offset with
      | .error _ => .panicked
      | .ok name =>
        rontLoop m count (nextStep cur_offset (get_pointer_path m cur_offset none))
          (acc ++ [name])

/-- Model of `read_object_names_table` from src/utils.rs. -/
def read_object_names_table (m : Mem) (off_names_first num_names : Nat) :
    Outcome (List Bytes) :=
  rontLoop m num_names off_names_first []

/-- Two readable bytes at 0x3000: the next-pointer read there is a short
read, an index panic in the source. -/
def memShort : Mem := memOf (bytesAt 0x3000 [0, 0])

/-- A readable name pointer at `0x100 + 0xC` pointing to unreadable memory. -/
def memNamePtr : Mem := memOf (u32At (0x100 + 0xC) 0x200)

/-- A readable next pointer (value 0) at node 0x100, name pointer
unreadable. -/
def memNameNext : Mem := memOf (u32At 0x100 0)

/-- Numeric value of a decimal digit character. -/
def digitVal (c : Char) : Nat := c.toNat - 48

/-- Parse a decimal digit string back to a number (left inverse of
`Nat.toDigits 10`, used to prove `Nat.repr` injective). -/
def parseDigits (cs : List Char) : Nat := cs.foldl (fun a c => 10 * a + digitVal c) 0

end WalkOfLife

namespace WalkOfLife

theorem copyBytes_length_le (m : Mem) : ∀ len addr, (copyBytes m addr len).length ≤ len := by
  intro len
  induction len with
  | zero => intro addr; simp [copyBytes]
  | succ k ih =>
    intro addr
    simp only [copyBytes]
    cases m.byte addr with
    | none => simp
    | some b => simpa using ih (addr + 1)

theorem transferBytes_length {m : Mem} {addr len : Nat} {bs : Bytes}
    (h : transferBytes m addr len = .ok bs) : bs.length ≤ len := by
  unfold transferBytes at h
  split at h
  · cases h; simp
  · cases hb : m.byte addr <;> rw [hb] at h
    · cases h
    · cases h; exact copyBytes_length_le m len addr

theorem copyBytes_readable (m : Mem) :
    ∀ len addr, readable m addr len →
      (copyBytes m addr len).length = len ∧
        ∀ i, i < len → (copyBytes m addr len)[i]? = m.byte (addr + i) := by
  intro len
  induction len with
  | zero => intro addr _; simp [copyBytes]
  | succ k ih =>
    intro addr hr
    have h0 : (m.byte addr).isSome = true := by
      have := hr 0 (Nat.succ_pos k); simpa using this
    obtain ⟨b, hb⟩ := Option.isSome_iff_exists.mp h0
    have hr' : readable m (addr + 1) k := by
      intro i hi
      have := hr (i + 1) (by omega)
      simpa [Nat.add_comm, Nat.add_assoc, Nat.add_left_comm] using this
    obtain ⟨hlen, hget⟩ := ih (addr + 1) hr'
    refine ⟨?_, ?_⟩
    · simp [copyBytes, hb, hlen]
    · intro i hi
      cases i with
      | zero => simp [copyBytes, hb]
      | succ j =>
        have hj : j < k := by omega
        have := hget j hj
        simp only [copyBytes, hb]
        simpa [Nat.add_comm, Nat.add_assoc, Nat.add_left_comm] using this

theorem transferBytes_readable {m : Mem} {addr len : Nat} (hr : readable m addr len) :
    transferBytes m addr len = .ok (copyBytes m addr len) := by
  unfold transferBytes
  split
  · rename_i h; subst h; simp [copyBytes]
  · rename_i h
    have h0 : (m.byte addr).isSome = true := by
      have := hr 0 (by omega); simpa using this
    obtain ⟨b, hb⟩ := Option.isSome_iff_exists.mp h0
    rw [hb]

theorem chunksN_join {s : Nat} (hs : 0 < s) :
    ∀ n (bs : Bytes), bs.length = n * s →
      (chunksN s n bs).flatten = bs ∧ (chunksN s n bs).length = n ∧
        ∀ c ∈ chunksN s n bs, c.length = s := by
  intro n
  induction n with
  | zero => intro bs h; simp at h; subst h; simp [chunksN]
  | succ k ih =>
    intro bs h
    have hsle : s ≤ bs.length := by
      rw [h, Nat.succ_mul]; omega
    have hdrop : (bs.drop s).length = k * s := by
      rw [List.length_drop, h, Nat.succ_mul]; omega
    obtain ⟨hj, hl, hc⟩ := ih (bs.drop s) hdrop
    simp only [chunksN, if_pos (And.intro hsle hs)]
    refine ⟨?_, ?_, ?_⟩
    · simp [hj]
    · simp [hl]
    · intro c hcmem
      rcases List.mem_cons.mp hcmem with hh | ht
      · subst hh; exact List.length_take_of_le hsle
      · exact hc c ht

theorem chunksN_length {s : Nat} (hs : 0 < s) :
    ∀ n (bs : Bytes), bs.length ≤ n * s →
      (chunksN s n bs).length = bs.length / s ∧ ∀ c ∈ chunksN s n bs, c.length = s := by
  intro n
  induction n with
  | zero =>
    intro bs h
    simp at h
    subst h
    simp [chunksN]
  | succ k ih =>
    intro bs h
    by_cases hsle : s ≤ bs.length
    · have hdrop : (bs.drop s).length ≤ k * s := by
        rw [List.length_drop]; rw [Nat.succ_mul] at h; omega
      obtain ⟨hl, hc⟩ := ih (bs.drop s) hdrop
      simp only [chunksN, if_pos (And.intro hsle hs)]
      constructor
      · simp only [List.length_cons, hl, List.length_drop]
        rw [Nat.div_eq_sub_div hs hsle]
      · intro c hcmem
        rcases List.mem_cons.mp hcmem with hh | ht
        · subst hh; exact List.length_take_of_le hsle
        · exact hc c ht
    · have : ¬ (s ≤ bs.length ∧ 0 < s) := fun hctr => hsle hctr.1
      simp only [chunksN, if_neg this]
      constructor
      · rw [Nat.div_eq_of_lt (by omega)]; simp
      · intro c hcmem; simp at hcmem

/-- C3: for every read of `n` elements of size `s`: when the whole requested
region is readable, `read_prims` succeeds with exactly `n` whole elements
whose bytes are the bytes of memory at that address; and whenever the
underlying transfer succeeds at all (possibly short), `read_prims` succeeds
with `bytes_transferred / s` whole elements, never a partial element and
never more than `n`. -/
theorem read_prims_spec (m : Mem) (s offset n : Nat) (hs : 0 < s) :
    (readable m offset (n * s) →
      ∃ cs, read_prims m s offset n = .ok cs ∧ cs.length = n ∧
        (∀ c ∈ cs, c.length = s) ∧
        ∀ i, i < n * s → cs.flatten[i]? = m.byte (offset + i)) ∧
    (∀ bs, transferBytes m offset (n * s) = .ok bs →
      ∃ cs, read_prims m s offset n = .ok cs ∧ cs.length = bs.length / s ∧
        bs.length ≤ n * s ∧ cs.length ≤ n ∧ ∀ c ∈ cs, c.length = s) := by
  constructor
  · intro hr
    obtain ⟨hlen, hget⟩ := copyBytes_readable m (n * s) offset hr
    obtain ⟨hj, hl, hc⟩ := chunksN_join hs n (copyBytes m offset (n * s)) hlen
    refine ⟨chunksN s n (copyBytes m offset (n * s)), ?_, hl, hc, ?_⟩
    · unfold read_prims
      rw [transferBytes_readable hr]
    · intro i hi
      rw [hj]
      exact hget i hi
  · intro bs htr
    have hble := transferBytes_length htr
    obtain ⟨hl, hc⟩ := chunksN_length hs n bs hble
    refine ⟨chunksN s n bs, ?_, hl, hble, ?_, hc⟩
    · unfold read_prims; rw [htr]
    · rw [hl]
      calc bs.length / s ≤ n * s / s := Nat.div_le_div_right hble
        _ = n := Nat.mul_div_cancel n hs

theorem leVal_lt : ∀ c : Bytes, leVal c < 256 ^ c.length := by
  intro c
  induction c with
  | nil => simp [leVal]
  | cons b r ih =>
    have hb := b.isLt
    have : leVal r + 1 ≤ 256 ^ r.length := ih
    have h2 : 256 * (leVal r + 1) ≤ 256 * 256 ^ r.length := Nat.mul_le_mul_left 256 this
    simp only [leVal, List.length_cons, pow_succ]
    calc b.val + 256 * leVal r < 256 * (leVal r + 1) := by omega
      _ ≤ 256 * 256 ^ r.length := h2
      _ = 256 ^ r.length * 256 := Nat.mul_comm _ _

theorem readU32_ok_lt {m : Mem} {addr a : Nat} (h : readU32 m addr = .ok a) : a < 2 ^ 32 := by
  unfold readU32 read_prims at h
  cases htr : transferBytes m addr (1 * 4) with
  | error e => rw [htr] at h; simp at h
  | ok bs =>
    rw [htr] at h
    dsimp only at h
    cases hcs : chunksN 4 1 bs with
    | nil => rw [hcs] at h; simp at h
    | cons c rest =>
      rw [hcs] at h
      simp only [Rd.ok.injEq] at h
      have hble := transferBytes_length htr
      obtain ⟨_, hc⟩ := chunksN_length (by omega) 1 bs hble
      have hcl : c.length = 4 := hc c (by rw [hcs]; exact List.mem_cons_self c rest)
      have hlt := leVal_lt c
      rw [hcl] at hlt
      norm_num at hlt
      omega

theorem ppLoop_eq_foldl (m : Mem) :
    ∀ (offs : List Nat) (cur : Nat),
      ppLoop m cur offs =
        offs.foldl
          (fun acc o =>
            match acc with
            | .error e => .error e
            | .ok a => readU32 m (a + o))
          (.ok cur) := by
  intro offs
  induction offs with
  | nil => intro cur; simp [ppLoop]
  | cons o rest ih =>
    intro cur
    simp only [ppLoop, List.foldl_cons]
    cases h : readU32 m (cur + o) with
    | error e =>
      clear ih h
      induction rest with
      | nil => simp
      | cons o2 r2 ih2 => simpa using ih2
    | ok nxt => exact ih nxt

theorem ppLoop_ok {m : Mem} :
    ∀ {offs : List Nat} {cur a : Nat}, ppLoop m cur offs = .ok a →
      a = cur ∨ ∃ x, readU32 m x = .ok a := by
  intro offs
  induction offs with
  | nil => intro cur a h; cases h; exact Or.inl rfl
  | cons o rest ih =>
    intro cur a h
    simp only [ppLoop] at h
    cases hr : readU32 m (cur + o) with
    | error e => rw [hr] at h; cases h
    | ok nxt =>
      rw [hr] at h
      rcases ih h with heq | hex
      · exact Or.inr ⟨cur + o, heq ▸ hr⟩
      · exact Or.inr hex

/-- C4: pointer-path resolution with an absent or empty offset sequence is a
single 32-bit read at the base; with offsets it is exactly the spec's
iterated dereference, so the first failing hop aborts the whole resolution
with that error and no partial address; every successful result is an
unsigned 32-bit value zero-extended to the host width (i.e. `< 2^32`). -/
theorem get_pointer_path_spec (m : Mem) (base : Nat) :
    (get_pointer_path m base none = readU32 m base) ∧
    (get_pointer_path m base (some []) = readU32 m base) ∧
    (∀ offs, get_pointer_path m base (some offs) = iterDeref m base offs) ∧
    (∀ e, readU32 m base = .error e →
      ∀ offs, get_pointer_path m base (some offs) = .error e) ∧
    (∀ o offs a e, get_pointer_path m base (some (offs ++ [o])) = .ok a →
      iterDeref m base offs ≠ .error e) ∧
    (∀ opt a, get_pointer_path m base opt = .ok a → a < 2 ^ 32) := by
  have hmain : ∀ offs, get_pointer_path m base (some offs) = iterDeref m base offs := by
    intro offs
    unfold get_pointer_path iterDeref
    cases h : readU32 m base with
    | error e =>
      clear h
      induction offs with
      | nil => simp
      | cons o rest ih => simpa using ih
    | ok cur => exact ppLoop_eq_foldl m offs cur
  refine ⟨?_, ?_, hmain, ?_, ?_, ?_⟩
  · unfold get_pointer_path
    cases h : readU32 m base <;> rfl
  · unfold get_pointer_path
    cases h : readU32 m base <;> simp [ppLoop]
  · intro e he offs
    rw [hmain offs]
    unfold iterDeref
    rw [he]
    clear hmain he
    induction offs with
    | nil => simp
    | cons o rest ih => simpa using ih
  · intro o offs a e hok hctr
    rw [hmain (offs ++ [o])] at hok
    unfold iterDeref at hok hctr
    rw [List.foldl_append] at hok
    rw [hctr] at hok
    simp at hok
  · intro opt a hok
    unfold get_pointer_path at hok
    cases h : readU32 m base with
    | error e => rw [h] at hok; simp at hok
    | ok cur =>
      rw [h] at hok
      cases opt with
      | none =>
        obtain rfl : cur = a := by simpa using hok
        exact readU32_ok_lt h
      | some offs =>
        have hok' : ppLoop m cur offs = .ok a := hok
        rcases ppLoop_ok hok' with heq | ⟨x, hx⟩
        · subst heq; exact readU32_ok_lt h
        · exact readU32_ok_lt hx

end WalkOfLife

namespace WalkOfLife

theorem utf8ValidUpToF_nil : ∀ f, utf8ValidUpToF f [] = 0 := by
  intro f
  cases f <;> simp [utf8ValidUpToF, utf8SeqLen]

theorem utf8SeqLen_bounds :
    ∀ {l : Bytes} {k : Nat}, utf8SeqLen l = some k → 0 < k ∧ k ≤ l.length := by
  intro l k h
  rcases l with _ | ⟨b, _ | ⟨c1, _ | ⟨c2, _ | ⟨c3, rest⟩⟩⟩⟩ <;>
    simp only [utf8SeqLen] at h <;>
    (try split_ifs at h) <;>
    first
      | exact Option.noConfusion h
      | (injection h with hk; subst hk;
         simp only [List.length_cons, List.length_nil]; omega)

set_option maxHeartbeats 1600000 in
theorem utf8SeqLen_take :
    ∀ {l : Bytes} {k j : Nat}, utf8SeqLen l = some k → k ≤ j →
      utf8SeqLen (l.take j) = some k := by
  intro l k j h hkj
  rcases l with _ | ⟨b, _ | ⟨c1, _ | ⟨c2, _ | ⟨c3, rest⟩⟩⟩⟩ <;>
    rcases j with _ | _ | _ | _ | j <;>
    simp only [utf8SeqLen, List.take_succ_cons, List.take_nil, List.take_zero] at h ⊢ <;>
    (try split_ifs at h ⊢) <;>
    first
      | exact Option.noConfusion h
      | (injection h with hk; omega)
      | exact h
      | rfl

theorem utf8ValidUpToF_succ_some {l : Bytes} {k : Nat} (h : utf8SeqLen l = some k) (f : Nat) :
    utf8ValidUpToF (f + 1) l = k + utf8ValidUpToF f (l.drop k) := by
  simp [utf8ValidUpToF, h]

theorem utf8ValidUpToF_succ_none {l : Bytes} (h : utf8SeqLen l = none) (f : Nat) :
    utf8ValidUpToF (f + 1) l = 0 := by
  simp [utf8ValidUpToF, h]

theorem utf8ValidUpToF_congr :
    ∀ f g (l : Bytes), l.length ≤ f → l.length ≤ g →
      utf8ValidUpToF f l = utf8ValidUpToF g l := by
  intro f
  induction f with
  | zero =>
    intro g l hf _
    have hl : l = [] := List.eq_nil_of_length_eq_zero (by omega)
    subst hl
    rw [utf8ValidUpToF_nil, utf8ValidUpToF_nil]
  | succ f ih =>
    intro g l hf hg
    cases g with
    | zero =>
      have hl : l = [] := List.eq_nil_of_length_eq_zero (by omega)
      subst hl
      rw [utf8ValidUpToF_nil, utf8ValidUpToF_nil]
    | succ g =>
      cases hseq : utf8SeqLen l with
      | none => rw [utf8ValidUpToF_succ_none hseq, utf8ValidUpToF_succ_none hseq]
      | some k =>
        have hb := utf8SeqLen_bounds hseq
        rw [utf8ValidUpToF_succ_some hseq, utf8ValidUpToF_succ_some hseq]
        rw [ih g (l.drop k) (by simp; omega) (by simp; omega)]

theorem utf8ValidUpToF_le : ∀ f (l : Bytes), utf8ValidUpToF f l ≤ l.length := by
  intro f
  induction f with
  | zero => intro l; simp [utf8ValidUpToF]
  | succ f ih =>
    intro l
    cases hseq : utf8SeqLen l with
    | none => rw [utf8ValidUpToF_succ_none hseq]; omega
    | some k =>
      have hb := utf8SeqLen_bounds hseq
      have hih := ih (l.drop k)
      rw [utf8ValidUpToF_succ_some hseq]
      simp at hih
      omega

theorem utf8ValidUpTo_le (l : Bytes) : utf8ValidUpTo l ≤ l.length :=
  utf8ValidUpToF_le l.length l

theorem utf8ValidUpToF_take :
    ∀ f (l : Bytes), l.length ≤ f →
      utf8ValidUpToF f (l.take (utf8ValidUpToF f l)) = utf8ValidUpToF f l := by
  intro f
  induction f with
  | zero => intro l _; simp [utf8ValidUpToF]
  | succ f ih =>
    intro l hf
    cases hseq : utf8SeqLen l with
    | none =>
      rw [utf8ValidUpToF_succ_none hseq]
      simp [utf8ValidUpToF_nil]
    | some k =>
      have hb := utf8SeqLen_bounds hseq
      rw [utf8ValidUpToF_succ_some hseq]
      set v := utf8ValidUpToF f (l.drop k) with hv
      have hvle : v ≤ (l.drop k).length := utf8ValidUpToF_le f (l.drop k)
      have hseq2 : utf8SeqLen (l.take (k + v)) = some k := utf8SeqLen_take hseq (by omega)
      rw [utf8ValidUpToF_succ_some hseq2]
      have hdt : (l.take (k + v)).drop k = (l.drop k).take v := (List.take_drop k v l).symm
      rw [hdt]
      rw [ih (l.drop k) (by simp; omega)]

theorem utf8ValidUpTo_take_self (l : Bytes) :
    utf8ValidUpTo (l.take (utf8ValidUpTo l)) = utf8ValidUpTo l := by
  unfold utf8ValidUpTo
  set v := utf8ValidUpToF l.length l with hv
  have hvle : v ≤ l.length := utf8ValidUpToF_le l.length l
  have hlt : (l.take v).length = v := by simp; omega
  rw [hlt]
  rw [utf8ValidUpToF_congr v l.length (l.take v) (by omega) (by simp)]
  exact utf8ValidUpToF_take l.length l (le_refl _)

theorem flatten_chunksN_one :
    ∀ n (bs : Bytes), bs.length ≤ n → (chunksN 1 n bs).flatten = bs := by
  intro n
  induction n with
  | zero =>
    intro bs h
    simp at h
    subst h
    simp [chunksN]
  | succ k ih =>
    intro bs h
    cases bs with
    | nil => simp [chunksN]
    | cons b rest =>
      have : (1 : Nat) ≤ (b :: rest).length ∧ (0 : Nat) < 1 := by simp
      simp only [chunksN, if_pos this]
      simp only [List.take_cons, List.take_zero, List.drop_succ_cons, List.drop_zero]
      simp only [List.flatten_cons]
      rw [ih rest (by simpa using h)]
      rfl

theorem copyBytes_take (m : Mem) :
    ∀ k len addr, k ≤ (copyBytes m addr len).length →
      copyBytes m addr k = (copyBytes m addr len).take k := by
  intro k
  induction k with
  | zero => intro len addr _; simp [copyBytes]
  | succ j ih =>
    intro len addr h
    cases len with
    | zero => simp [copyBytes] at h
    | succ l =>
      cases hb : m.byte addr with
      | none => simp [copyBytes, hb] at h
      | some b =>
        simp only [copyBytes, hb] at h ⊢
        simp only [List.length_cons] at h
        rw [List.take_succ_cons]
        rw [ih l (addr + 1) (by omega)]

theorem transferBytes_take {m : Mem} {addr len : Nat} {bs : Bytes}
    (h : transferBytes m addr len = .ok bs) :
    ∀ k, k ≤ bs.length → transferBytes m addr k = .ok (bs.take k) := by
  intro k hk
  cases k with
  | zero => simp [transferBytes]
  | succ j =>
    unfold transferBytes at h ⊢
    split at h
    · cases h; simp at hk
    · cases hb : m.byte addr with
      | none => rw [hb] at h; cases h
      | some b =>
        rw [hb] at h
        cases h
        rw [if_neg (Nat.succ_ne_zero j)]
        dsimp only
        rw [copyBytes_take m (j + 1) len addr hk]

end WalkOfLife

namespace WalkOfLife

theorem truncAtNull_take (bs : Bytes) : ∃ j, truncAtNull bs = bs.take j := by
  unfold truncAtNull
  cases hidx : bs.findIdx? (fun b => b == 0) with
  | some idx => exact ⟨idx, rfl⟩
  | none => exact ⟨bs.length, (List.take_length bs).symm⟩

/-- C5: `read_string` truncates the bytes read at the first null byte; when
decoding the remainder fails, it returns exactly the valid decodable prefix;
it errors only when the underlying read does.  Concretely, on
`"hi\0garbage"` with `n = 10` it returns `"hi"`, and on a valid prefix
followed by an undecodable byte with no null it returns exactly the prefix. -/
theorem read_string_spec :
    (read_string memHi 0 10 = .ok [104, 105]) ∧
    (read_string memBad 0 4 = .ok [104, 105]) ∧
    (∀ (m : Mem) (offset n : Nat) (e : MemErr),
      transferBytes m offset (n * 1) = .error e → read_string m offset n = .error e) ∧
    (∀ (m : Mem) (offset n : Nat) (bs : Bytes),
      transferBytes m offset (n * 1) = .ok bs →
        read_string m offset n =
          .ok ((truncAtNull bs).take (utf8ValidUpTo (truncAtNull bs)))) := by
  refine ⟨by decide, by decide, ?_, ?_⟩
  · intro m offset n e htr
    unfold read_string read_prims
    rw [htr]
  · intro m offset n bs htr
    have hlen : bs.length ≤ n := by
      have := transferBytes_length htr
      omega
    have h1 : read_prims m 1 offset n = .ok (chunksN 1 n bs) := by
      unfold read_prims; rw [htr]
    unfold read_string
    rw [h1]
    dsimp only
    have hfl : (chunksN 1 n bs).flatten = bs := flatten_chunksN_one n bs hlen
    rw [hfl]
    obtain ⟨j, hj⟩ := truncAtNull_take bs
    have htl : (truncAtNull bs).length ≤ bs.length := by rw [hj]; simp
    by_cases hvalid : utf8ValidUpTo (truncAtNull bs) = (truncAtNull bs).length
    · rw [if_pos hvalid]
      rw [hvalid, List.take_length]
    · rw [if_neg hvalid]
      set v := utf8ValidUpTo (truncAtNull bs) with hvdef
      have hvle : v ≤ (truncAtNull bs).length := utf8ValidUpTo_le (truncAtNull bs)
      have hvbs : v ≤ bs.length := le_trans hvle htl
      have h2 : read_prims m 1 offset v = .ok (chunksN 1 v (bs.take v)) := by
        unfold read_prims
        rw [Nat.mul_one]
        rw [transferBytes_take htr _ hvbs]
      rw [h2]
      dsimp only
      have hfl2 : (chunksN 1 v (bs.take v)).flatten = bs.take v := by
        apply flatten_chunksN_one
        simp
      rw [hfl2]
      have hbt : bs.take v = (truncAtNull bs).take v := by
        conv_rhs => rw [hj]
        rw [List.take_take]
        congr 1
        have hmin : (truncAtNull bs).length = min j bs.length := by rw [hj]; simp
        omega
      rw [hbt]
      have hval2 : utf8ValidUpTo ((truncAtNull bs).take v) = v :=
        utf8ValidUpTo_take_self (truncAtNull bs)
      have hlen2 : ((truncAtNull bs).take v).length = v := by simp; omega
      rw [if_pos (by rw [hval2, hlen2])]

/-- Witness for C5: instantiates the universal parts on concrete images. -/
theorem read_string_spec_witness :
    read_string memHi 0 10 =
      .ok ((truncAtNull (copyBytes memHi 0 10)).take
        (utf8ValidUpTo (truncAtNull (copyBytes memHi 0 10)))) ∧
    read_string memEmpty 0 3 = .error .io := by
  constructor
  · exact read_string_spec.2.2.2 memHi 0 10 (copyBytes memHi 0 10) (by decide)
  · exact read_string_spec.2.2.1 memEmpty 0 3 .io (by decide)

end WalkOfLife

namespace WalkOfLife

/-- Witness for C3: instantiates both parts on concrete images (a fully
readable region and a short region). -/
theorem read_prims_spec_witness :
    (∃ cs, read_prims memW3 4 100 2 = .ok cs ∧ cs.length = 2 ∧
      (∀ c ∈ cs, c.length = 4) ∧
      ∀ i, i < 2 * 4 → cs.flatten[i]? = memW3.byte (100 + i)) ∧
    (∃ cs, read_prims memW5 4 100 2 = .ok cs ∧
      cs.length = (copyBytes memW5 100 8).length / 4 ∧
      (copyBytes memW5 100 8).length ≤ 2 * 4 ∧ cs.length ≤ 2 ∧
      ∀ c ∈ cs, c.length = 4) :=
  ⟨(read_prims_spec memW3 4 100 2 (by decide)).1 (by decide),
   (read_prims_spec memW5 4 100 2 (by decide)).2 (copyBytes memW5 100 8) (by decide)⟩

/-- Witness for C4: a failing base read aborts resolution with that error,
and a successful resolution yields a 32-bit value. -/
theorem get_pointer_path_spec_witness :
    get_pointer_path memEmpty 5 (some [0]) = .error MemErr.io ∧ 0x1234 < 2 ^ 32 :=
  ⟨(get_pointer_path_spec memEmpty 5).2.2.2.1 .io (by decide) [0],
   (get_pointer_path_spec memPtr 100).2.2.2.2.2 none 0x1234 (by decide)⟩

end WalkOfLife

namespace WalkOfLife

/-- Counterexample for C2: on the synthetic three-node chain whose middle
node's next-sibling hop fails, the walk returns both A's and B's entries,
not only A's. -/
theorem walk_chain_counterexample :
    get_active_super_object_names chainMemB ["A", "B", "C"] 100 10 =
      .ok [("A", 100), ("B", 200)] ∧
    get_active_super_object_names chainMemB ["A", "B", "C"] 100 10 ≠
      .ok [("A", 100)] := by
  constructor <;> decide

/-- C2 (amended): walking the full chain returns all three name→address
pairs in chain order; when the middle node's next-sibling hop fails, the
walk succeeds with the entries accumulated up to and including the middle
node (A and B), rather than an error. -/
theorem walk_chain_spec :
    get_active_super_object_names chainMemA ["A", "B", "C"] 100 10 =
      .ok [("A", 100), ("B", 200), ("C", 300)] ∧
    get_active_super_object_names chainMemB ["A", "B", "C"] 100 10 =
      .ok [("A", 100), ("B", 200)] := by
  constructor <;> decide

end WalkOfLife

namespace WalkOfLife

/-- C6: in both hierarchy walkers, once the walk has started, an `Err` from
either the name-index resolution or the next-sibling resolution stops the
walk immediately and returns the registry accumulated so far as `Ok`. -/
theorem walk_partial_on_failure :
    (∀ (m : Mem) (names : List String) (fuel : Nat) (reg : Registry) (node : Nat),
      node ≠ 0 →
      get_pointer_path m (node + 4) (some [4, 8]) = .error .io →
      walkNamesLoop m names (fuel + 1) reg node = .ok reg) ∧
    (∀ (m : Mem) (names : List String) (fuel : Nat) (reg : Registry) (node idx : Nat),
      node ≠ 0 →
      get_pointer_path m (node + 4) (some [4, 8]) = .ok idx →
      get_pointer_path m (node + 0x14) none = .error .io →
      walkNamesLoop m names (fuel + 1) reg node =
        .ok (insertReg reg (lookupName names idx node) node)) ∧
    (∀ (m : Mem) (names : List String) (fuel : Nat) (reg : RegistryM) (node : Nat),
      node ≠ 0 →
      get_pointer_path m (node + 4) (some [4, 4]) = .error .io →
      walkAiLoop m names (fuel + 1) reg node = .ok reg) ∧
    (∀ (m : Mem) (names : List String) (fuel : Nat) (reg : RegistryM) (node idx : Nat),
      node ≠ 0 →
      get_pointer_path m (node + 4) (some [4, 4]) = .ok idx →
      get_pointer_path m (node + 0x14) none = .error .io →
      walkAiLoop m names (fuel + 1) reg node =
        .ok (insertRegM reg (lookupName names idx node) node)) := by
  refine ⟨?_, ?_, ?_, ?_⟩
  · intro m names fuel reg node hnode hname
    simp only [walkNamesLoop]
    rw [if_pos hnode, hname]
  · intro m names fuel reg node idx hnode hname hnext
    simp only [walkNamesLoop]
    rw [if_pos hnode, hname, hnext]
  · intro m names fuel reg node hnode hname
    simp only [walkAiLoop]
    rw [if_pos hnode, hname]
  · intro m names fuel reg node idx hnode hname hnext
    simp only [walkAiLoop]
    rw [if_pos hnode, hname, hnext]

/-- Witness for C6: concrete mid-walk failures at each of the four spots. -/
theorem walk_partial_on_failure_witness :
    walkNamesLoop memEmpty ["A"] (4 + 1) [] 5 = .ok [] ∧
    walkNamesLoop chainMemB ["A", "B", "C"] (4 + 1) [("A", 100)] 200 =
      .ok (insertReg [("A", 100)] (lookupName ["A", "B", "C"] 1 200) 200) ∧
    walkAiLoop memEmpty ["X"] (4 + 1) [] 5 = .ok [] ∧
    walkAiLoop aiMem ["X"] (4 + 1) [] 300 =
      .ok (insertRegM [] (lookupName ["X"] 0 300) 300) :=
  ⟨walk_partial_on_failure.1 memEmpty ["A"] 4 [] 5 (by decide) (by decide),
   walk_partial_on_failure.2.1 chainMemB ["A", "B", "C"] 4 [("A", 100)] 200 1
     (by decide) (by decide) (by decide),
   walk_partial_on_failure.2.2.1 memEmpty ["X"] 4 [] 5 (by decide) (by decide),
   walk_partial_on_failure.2.2.2 aiMem ["X"] 4 [] 300 0 (by decide) (by decide) (by decide)⟩

/-- C9: both walks terminate from any start whose sibling chain reaches the
null sentinel or a failing read within finitely many hops; and neither walk
detects cycles — on a concrete self-looping chain both walks exhaust any
step budget. -/
theorem walk_termination :
    (∀ (m : Mem) (names : List String) (k : Nat),
      ∀ (fuel : Nat) (reg : Registry) (node : Nat),
        chainEnds m k node = true → k < fuel →
        walkNamesLoop m names fuel reg node ≠ .spin) ∧
    (∀ (m : Mem) (names : List String) (k : Nat),
      ∀ (fuel : Nat) (reg : RegistryM) (node : Nat),
        chainEnds m k node = true → k < fuel →
        walkAiLoop m names fuel reg node ≠ .spin) ∧
    (∀ (fuel : Nat) (reg : Registry), walkNamesLoop memCyc ["A"] fuel reg 256 = .spin) ∧
    (∀ (fuel : Nat) (reg : RegistryM), walkAiLoop memCyc ["A"] fuel reg 256 = .spin) := by
  refine ⟨?_, ?_, ?_, ?_⟩
  · intro m names k
    induction k with
    | zero =>
      intro fuel reg node hend hfuel
      have hnode : node = 0 := by simpa [chainEnds] using hend
      subst hnode
      cases fuel with
      | zero => omega
      | succ f => simp [walkNamesLoop]
    | succ k ih =>
      intro fuel reg node hend hfuel
      cases fuel with
      | zero => omega
      | succ f =>
        by_cases hnode : node = 0
        · subst hnode; simp [walkNamesLoop]
        · simp only [walkNamesLoop]
          rw [if_pos hnode]
          have hend' : (match get_pointer_path m (node + 0x14) none with
              | .ok nxt => chainEnds m k nxt
              | .error _ => true) = true := by
            simpa [chainEnds, hnode] using hend
          cases hname : get_pointer_path m (node + 4) (some [4, 8]) with
          | error e => cases e <;> simp
          | ok idx =>
            cases hnext : get_pointer_path m (node + 0x14) none with
            | error e => cases e <;> simp
            | ok nxt =>
              rw [hnext] at hend'
              exact ih f (insertReg reg (lookupName names idx node) node) nxt hend' (by omega)
  · intro m names k
    induction k with
    | zero =>
      intro fuel reg node hend hfuel
      have hnode : node = 0 := by simpa [chainEnds] using hend
      subst hnode
      cases fuel with
      | zero => omega
      | succ f => simp [walkAiLoop]
    | succ k ih =>
      intro fuel reg node hend hfuel
      cases fuel with
      | zero => omega
      | succ f =>
        by_cases hnode : node = 0
        · subst hnode; simp [walkAiLoop]
        · simp only [walkAiLoop]
          rw [if_pos hnode]
          have hend' : (match get_pointer_path m (node + 0x14) none with
              | .ok nxt => chainEnds m k nxt
              | .error _ => true) = true := by
            simpa [chainEnds, hnode] using hend
          cases hname : get_pointer_path m (node + 4) (some [4, 4]) with
          | error e => cases e <;> simp
          | ok idx =>
            cases hnext : get_pointer_path m (node + 0x14) none with
            | error e => cases e <;> simp
            | ok nxt =>
              rw [hnext] at hend'
              exact ih f (insertRegM reg (lookupName names idx node) node) nxt hend' (by omega)
  · intro fuel
    induction fuel with
    | zero => intro reg; rfl
    | succ f ih =>
      intro reg
      simp only [walkNamesLoop]
      rw [if_pos (by decide)]
      have hname : get_pointer_path memCyc (256 + 4) (some [4, 8]) = .ok 0 := by decide
      have hnext : get_pointer_path memCyc (256 + 0x14) none = .ok 256 := by decide
      rw [hname, hnext]
      exact ih _
  · intro fuel
    induction fuel with
    | zero => intro reg; rfl
    | succ f ih =>
      intro reg
      simp only [walkAiLoop]
      rw [if_pos (by decide)]
      have hname : get_pointer_path memCyc (256 + 4) (some [4, 4]) = .ok 0 := by decide
      have hnext : get_pointer_path memCyc (256 + 0x14) none = .ok 256 := by decide
      rw [hname, hnext]
      exact ih _

/-- Witness for C9: the three-node chain ends within three hops, so both
walks finish there; the self-loop spins for a concrete budget. -/
theorem walk_termination_witness :
    walkNamesLoop chainMemA ["A", "B", "C"] 5 [] 100 ≠ .spin ∧
    walkAiLoop aiMem ["X"] 4 [] 100 ≠ .spin ∧
    walkNamesLoop memCyc ["A"] 3 [] 256 = .spin ∧
    walkAiLoop memCyc ["A"] 3 [] 256 = .spin :=
  ⟨walk_termination.1 chainMemA ["A", "B", "C"] 3 5 [] 100 (by decide) (by decide),
   walk_termination.2.1 aiMem ["X"] 2 4 [] 100 (by decide) (by decide),
   walk_termination.2.2.1 3 [],
   walk_termination.2.2.2 3 []⟩

end WalkOfLife

namespace WalkOfLife

theorem parseDigits_shift (ys : List Char) :
    ∀ a : Nat, ys.foldl (fun acc c => 10 * acc + digitVal c) a =
      a * 10 ^ ys.length + parseDigits ys := by
  induction ys with
  | nil => intro a; simp [parseDigits]
  | cons c ys ih =>
    intro a
    rw [List.foldl_cons]
    rw [ih (10 * a + digitVal c)]
    have hc : parseDigits (c :: ys) = digitVal c * 10 ^ ys.length + parseDigits ys := by
      unfold parseDigits
      rw [List.foldl_cons]
      rw [ih (10 * 0 + digitVal c)]
      simp only [Nat.mul_zero, Nat.zero_add]
      rfl
    rw [hc]
    simp [List.length_cons, pow_succ]
    ring

theorem digitVal_digitChar {d : Nat} (h : d < 10) : digitVal (Nat.digitChar d) = d := by
  interval_cases d <;> rfl

theorem parseDigits_toDigitsCore :
    ∀ (fuel n : Nat) (ds : List Char), n < 10 ^ fuel →
      parseDigits (Nat.toDigitsCore 10 fuel n ds) = n * 10 ^ ds.length + parseDigits ds := by
  intro fuel
  induction fuel with
  | zero =>
    intro n ds h
    simp only [pow_zero, Nat.lt_one_iff] at h
    subst h
    simp [Nat.toDigitsCore]
  | succ f ih =>
    intro n ds h
    simp only [Nat.toDigitsCore]
    by_cases hq : n / 10 = 0
    · rw [if_pos hq]
      have hn : n < 10 := by omega
      have hmod : n % 10 = n := Nat.mod_eq_of_lt hn
      unfold parseDigits
      rw [List.foldl_cons]
      rw [parseDigits_shift ds (10 * 0 + digitVal (Nat.digitChar (n % 10)))]
      rw [hmod, digitVal_digitChar hn]
      simp only [Nat.mul_zero, Nat.zero_add]
      rfl
    · rw [if_neg hq]
      have h' : n / 10 < 10 ^ f := by
        rw [Nat.div_lt_iff_lt_mul (by norm_num : (0 : Nat) < 10)]
        calc n < 10 ^ (f + 1) := h
          _ = 10 ^ f * 10 := by rw [pow_succ]
      rw [ih (n / 10) (Nat.digitChar (n % 10) :: ds) h']
      have hc : parseDigits (Nat.digitChar (n % 10) :: ds) =
          (n % 10) * 10 ^ ds.length + parseDigits ds := by
        unfold parseDigits
        rw [List.foldl_cons]
        rw [parseDigits_shift ds (10 * 0 + digitVal (Nat.digitChar (n % 10)))]
        rw [digitVal_digitChar (Nat.mod_lt n (by norm_num))]
        simp only [Nat.mul_zero, Nat.zero_add]
        rfl
      rw [hc]
      simp only [List.length_cons, pow_succ]
      conv_rhs => rw [← Nat.div_add_mod n 10]
      ring

theorem parseDigits_toDigits (n : Nat) : parseDigits (Nat.toDigits 10 n) = n := by
  unfold Nat.toDigits
  have h : n < 10 ^ (n + 1) := by
    calc n < 10 ^ n := Nat.lt_pow_self (by norm_num) n
      _ ≤ 10 ^ (n + 1) := Nat.pow_le_pow_right (by norm_num) (by omega)
  have hmain := parseDigits_toDigitsCore (n + 1) n [] h
  simpa [parseDigits] using hmain

theorem Nat_repr_inj {a b : Nat} (h : Nat.repr a = Nat.repr b) : a = b := by
  have hd : Nat.toDigits 10 a = Nat.toDigits 10 b := by
    have hdata := congrArg String.data h
    simpa [Nat.repr, List.asString] using hdata
  have hp := congrArg parseDigits hd
  rwa [parseDigits_toDigits, parseDigits_toDigits] at hp

theorem placeholderName_inj {a b : Nat} (h : placeholderName a = placeholderName b) :
    a = b := by
  unfold placeholderName at h
  have hdata := congrArg String.data h
  simp only [String.data_append] at hdata
  have hrest : (Nat.repr a).data = (Nat.repr b).data := List.append_cancel_left hdata
  have hstr : Nat.repr a = Nat.repr b := by
    cases ha : Nat.repr a with
    | mk da =>
      cases hb : Nat.repr b with
      | mk db =>
        rw [ha, hb] at hrest
        simp at hrest
        rw [hrest]
  exact Nat_repr_inj hstr

end WalkOfLife

namespace WalkOfLife

/-- Counterexample for C7: a walked node at address 7 with an out-of-range
name index synthesizes the placeholder `"unknown_7"`, which collides with a
real name in the supplied table (the table may legitimately contain a string
of that shape). -/
theorem placeholder_collision_counterexample :
    get_active_super_object_names memColl ["unknown_7"] 7 5 =
      .ok [("unknown_7", 7)] ∧
    placeholderName 7 = "unknown_7" ∧
    "unknown_7" ∈ ["unknown_7"] := by
  refine ⟨by decide, by decide, by decide⟩

/-- C7 (amended): the placeholder synthesized for an out-of-range name index
embeds the node's own address and is injective in it, so two distinct walked
nodes can never receive the same placeholder; collision with a real name in
the supplied table is not prevented.  The walker inserts exactly this
placeholder when the resolved index is out of bounds. -/
theorem placeholder_unique :
    (∀ a b : Nat, placeholderName a = placeholderName b → a = b) ∧
    (∀ (m : Mem) (names : List String) (fuel : Nat) (reg : Registry) (node idx : Nat),
      node ≠ 0 →
      get_pointer_path m (node + 4) (some [4, 8]) = .ok idx →
      names[idx]? = none →
      get_pointer_path m (node + 0x14) none = .error .io →
      walkNamesLoop m names (fuel + 1) reg node =
        .ok (insertReg reg (placeholderName node) node)) := by
  constructor
  · intro a b h
    exact placeholderName_inj h
  · intro m names fuel reg node idx hnode hname hidx hnext
    simp only [walkNamesLoop]
    rw [if_pos hnode, hname, hnext]
    simp only [lookupName, hidx]

/-- Witness for C7: two concrete distinct addresses, and the concrete
out-of-range walk step inserting the placeholder. -/
theorem placeholder_unique_witness :
    (placeholderName 7 = placeholderName 7 → (7 : Nat) = 7) ∧
    walkNamesLoop memColl ["unknown_7"] (4 + 1) [] 7 =
      .ok (insertReg [] (placeholderName 7) 7) :=
  ⟨placeholder_unique.1 7 7,
   placeholder_unique.2 memColl ["unknown_7"] 4 [] 7 3
     (by decide) (by decide) (by decide) (by decide)⟩

end WalkOfLife

namespace WalkOfLife

/-- C1 (code bug): on a family with two fully processable records,
`keep_instead = false` with index set `{1}` processes exactly record 1 and
skips record 0, and `keep_instead = true` with the same set processes
exactly record 0 — the opposite of the documented "skip these" / "keep only
these" semantics, because the filter `indices.contains(&i) == keep_instead`
skips a record when the test equals the flag. -/
theorem family_filter_inverted :
    get_family_po_vert_offsets memFam 0x4000 false [1] =
      .ok [(0x4500, [[44, 0, 0, 0], [55, 0, 0, 0], [66, 0, 0, 0]])] ∧
    get_family_po_vert_offsets memFam 0x4000 true [1] =
      .ok [(0x3500, [[11, 0, 0, 0], [22, 0, 0, 0], [33, 0, 0, 0]])] := by
  constructor <;> decide

/-- C8: per-record failures at the visual-set hop, the LOD/type read, the
mesh-descriptor hop or the vertex-pointer hop skip the record (`.ok none`),
while a failure to read the base table pointer, the table header, the
vertex count after the mesh descriptor was found, or the vertex buffer, is
the hard `Err` return of `get_family_po_vert_offsets`. -/
theorem family_error_policy :
    (∀ (m : Mem) (offset_family : Nat) (keep : Bool) (indices : List Nat),
      get_pointer_path m (offset_family + 0x1C) none = .error .io →
      get_family_po_vert_offsets m offset_family keep indices = .err) ∧
    (∀ (m : Mem) (offset_family odt : Nat) (keep : Bool) (indices : List Nat) (e : MemErr),
      get_pointer_path m (offset_family + 0x1C) none = .ok odt →
      read_prims m 4 (odt + 4) 3 = .error e →
      get_family_po_vert_offsets m offset_family keep indices = .err) ∧
    (∀ (m : Mem) (entry : Nat),
      get_pointer_path m (entry + 4) (some [0]) = .error .io →
      famRecord m entry = .ok none) ∧
    (∀ (m : Mem) (entry vis : Nat) (e : MemErr),
      get_pointer_path m (entry + 4) (some [0]) = .ok vis →
      read_prims m 2 (vis + 4) 2 = .error e →
      famRecord m entry = .ok none) ∧
    (∀ (m : Mem) (entry vis : Nat) (c0 c1 : Bytes) (cs : List Bytes),
      get_pointer_path m (entry + 4) (some [0]) = .ok vis →
      read_prims m 2 (vis + 4) 2 = .ok (c0 :: c1 :: cs) →
      0 < i16Val c0 → i16Val c1 = 0 →
      get_pointer_path m (vis + 0xC) (some [0]) = .error .io →
      famRecord m entry = .ok none) ∧
    (∀ (m : Mem) (entry vis mesh : Nat) (c0 c1 : Bytes) (cs : List Bytes),
      get_pointer_path m (entry + 4) (some [0]) = .ok vis →
      read_prims m 2 (vis + 4) 2 = .ok (c0 :: c1 :: cs) →
      0 < i16Val c0 → i16Val c1 = 0 →
      get_pointer_path m (vis + 0xC) (some [0]) = .ok mesh →
      get_pointer_path m mesh none = .error .io →
      famRecord m entry = .ok none) ∧
    (∀ (m : Mem) (entry vis mesh verts : Nat) (c0 c1 : Bytes) (cs : List Bytes) (e : MemErr),
      get_pointer_path m (entry + 4) (some [0]) = .ok vis →
      read_prims m 2 (vis + 4) 2 = .ok (c0 :: c1 :: cs) →
      0 < i16Val c0 → i16Val c1 = 0 →
      get_pointer_path m (vis + 0xC) (some [0]) = .ok mesh →
      get_pointer_path m mesh none = .ok verts →
      read_prims m 2 (mesh + 0x2C) 1 = .error e →
      famRecord m entry = .err) ∧
    (∀ (m : Mem) (entry vis mesh verts : Nat) (c0 c1 cv : Bytes) (cs cs2 : List Bytes)
        (e : MemErr),
      get_pointer_path m (entry + 4) (some [0]) = .ok vis →
      read_prims m 2 (vis + 4) 2 = .ok (c0 :: c1 :: cs) →
      0 < i16Val c0 → i16Val c1 = 0 →
      get_pointer_path m (vis + 0xC) (some [0]) = .ok mesh →
      get_pointer_path m mesh none = .ok verts →
      read_prims m 2 (mesh + 0x2C) 1 = .ok (cv :: cs2) →
      read_prims m 4 verts (3 * i16AsUsize (i16Val cv)) = .error e →
      famRecord m entry = .err) := by
  refine ⟨?_, ?_, ?_, ?_, ?_, ?_, ?_, ?_⟩
  · intro m fam keep indices h1
    unfold get_family_po_vert_offsets
    rw [h1]
  · intro m fam odt keep indices e h1 h2
    unfold get_family_po_vert_offsets
    rw [h1]
    dsimp only
    rw [h2]
  · intro m entry h1
    unfold famRecord
    rw [h1]
  · intro m entry vis e h1 h2
    unfold famRecord
    rw [h1]
    dsimp only
    rw [h2]
  · intro m entry vis c0 c1 cs h1 h2 h3 h4 h5
    unfold famRecord
    rw [h1]
    dsimp only
    rw [h2]
    dsimp only
    rw [if_pos ⟨h3, h4⟩, h5]
  · intro m entry vis mesh c0 c1 cs h1 h2 h3 h4 h5 h6
    unfold famRecord
    rw [h1]
    dsimp only
    rw [h2]
    dsimp only
    rw [if_pos ⟨h3, h4⟩, h5]
    dsimp only
    rw [h6]
  · intro m entry vis mesh verts c0 c1 cs e h1 h2 h3 h4 h5 h6 h7
    unfold famRecord
    rw [h1]
    dsimp only
    rw [h2]
    dsimp only
    rw [if_pos ⟨h3, h4⟩, h5]
    dsimp only
    rw [h6]
    dsimp only
    rw [h7]
  · intro m entry vis mesh verts c0 c1 cv cs cs2 e h1 h2 h3 h4 h5 h6 h7 h8
    unfold famRecord
    rw [h1]
    dsimp only
    rw [h2]
    dsimp only
    rw [if_pos ⟨h3, h4⟩, h5]
    dsimp only
    rw [h6]
    dsimp only
    rw [h7]
    dsimp only
    rw [h8]

/-- Witness for C8: one concrete memory image per failure point. -/
theorem family_error_policy_witness :
    get_family_po_vert_offsets memEmpty 0x4000 false [] = .err ∧
    get_family_po_vert_offsets memFamHdr 0x4000 false [] = .err ∧
    famRecord memEmpty 0x3000 = .ok none ∧
    famRecord memFamD 0x3000 = .ok none ∧
    famRecord memFamE 0x3000 = .ok none ∧
    famRecord memFamF 0x3000 = .ok none ∧
    famRecord memFamG 0x3000 = .err ∧
    famRecord memFamH 0x3000 = .err :=
  ⟨family_error_policy.1 memEmpty 0x4000 false [] (by decide),
   family_error_policy.2.1 memFamHdr 0x4000 0x2000 false [] .io (by decide) (by decide),
   family_error_policy.2.2.1 memEmpty 0x3000 (by decide),
   family_error_policy.2.2.2.1 memFamD 0x3000 0x3200 .io (by decide) (by decide),
   family_error_policy.2.2.2.2.1 memFamE 0x3000 0x3200 [1, 0] [0, 0] []
     (by decide) (by decide) (by decide) (by decide) (by decide),
   family_error_policy.2.2.2.2.2.1 memFamF 0x3000 0x3200 0x3400 [1, 0] [0, 0] []
     (by decide) (by decide) (by decide) (by decide) (by decide) (by decide),
   family_error_policy.2.2.2.2.2.2.1 memFamG 0x3000 0x3200 0x3400 0x3500 [1, 0] [0, 0] [] .io
     (by decide) (by decide) (by decide) (by decide) (by decide) (by decide) (by decide),
   family_error_policy.2.2.2.2.2.2.2 memFamH 0x3000 0x3200 0x3400 0x3500 [1, 0] [0, 0] [1, 0]
     [] [] .io
     (by decide) (by decide) (by decide) (by decide) (by decide) (by decide) (by decide)
     (by decide)⟩

end WalkOfLife

namespace WalkOfLife

theorem rontLoop_props (m : Mem) :
    ∀ (count cur : Nat) (acc : List Bytes),
      rontLoop m count cur acc ≠ .err ∧ rontLoop m count cur acc ≠ .spin ∧
      ∀ l, rontLoop m count cur acc = .ok l → l.length = count + acc.length := by
  intro count
  induction count with
  | zero =>
    intro cur acc
    refine ⟨by simp [rontLoop], by simp [rontLoop], ?_⟩
    intro l h
    have hacc : acc = l := by simpa [rontLoop] using h
    subst hacc
    simp
  | succ count ih =>
    intro cur acc
    by_cases hp : get_pointer_path m cur none = .error .panicked
    · have hs : rontLoop m (count + 1) cur acc = .panicked := by
        simp only [rontLoop, if_pos hp]
      rw [hs]
      exact ⟨fun hc => Outcome.noConfusion hc, fun hc => Outcome.noConfusion hc,
        fun l hc => Outcome.noConfusion hc⟩
    · cases ht : tableName m cur with
      | error e =>
        have hs : rontLoop m (count + 1) cur acc = .panicked := by
          simp only [rontLoop, if_neg hp, ht]
        rw [hs]
        exact ⟨fun hc => Outcome.noConfusion hc, fun hc => Outcome.noConfusion hc,
          fun l hc => Outcome.noConfusion hc⟩
      | ok name =>
        have hs : rontLoop m (count + 1) cur acc =
            rontLoop m count (nextStep cur (get_pointer_path m cur none)) (acc ++ [name]) := by
          simp only [rontLoop, if_neg hp, ht]
        rw [hs]
        obtain ⟨he, hsp, hl⟩ := ih (nextStep cur (get_pointer_path m cur none)) (acc ++ [name])
        refine ⟨he, hsp, ?_⟩
        intro l h
        have hll := hl l h
        simp only [List.length_append, List.length_cons, List.length_nil] at hll
        omega

/-- Counterexample for C10: a short (two-byte) read at the node's
next-pointer makes the index `[0]` panic in `get_pointer_path`, so
`read_object_names_table` does not return a vector at all. -/
theorem names_table_counterexample :
    read_object_names_table memShort 0x3000 1 = .panicked := by decide

/-- C10 (amended): `read_object_names_table` never returns an error, and
every returned vector has exactly `num_names` entries, substituting the
empty string for an entry whose name-pointer hop or string read fails with
an I/O error and reusing the current node when the next-pointer hop fails
or yields zero; but a short read inside a pointer hop is an index panic, so
totality holds only in its absence. -/
theorem names_table_spec :
    (∀ (m : Mem) (off n : Nat), read_object_names_table m off n ≠ .err) ∧
    (∀ (m : Mem) (off n : Nat), read_object_names_table m off n ≠ .spin) ∧
    (∀ (m : Mem) (off n : Nat) (l : List Bytes),
      read_object_names_table m off n = .ok l → l.length = n) ∧
    (∀ (m : Mem) (cur : Nat),
      get_pointer_path m (cur + 0xC) none = .error .io → tableName m cur = .ok []) ∧
    (∀ (m : Mem) (cur p : Nat),
      get_pointer_path m (cur + 0xC) none = .ok p →
      read_string m p 64 = .error .io → tableName m cur = .ok []) ∧
    (∀ (m : Mem) (count cur : Nat) (acc : List Bytes) (name : Bytes),
      get_pointer_path m cur none = .error .io →
      tableName m cur = .ok name →
      rontLoop m (count + 1) cur acc = rontLoop m count cur (acc ++ [name])) ∧
    (∀ (m : Mem) (count cur nxt : Nat) (acc : List Bytes) (name : Bytes),
      get_pointer_path m cur none = .ok nxt →
      tableName m cur = .ok name →
      rontLoop m (count + 1) cur acc =
        rontLoop m count (if 0 < nxt then nxt else cur) (acc ++ [name])) := by
  refine ⟨?_, ?_, ?_, ?_, ?_, ?_, ?_⟩
  · intro m off n
    exact (rontLoop_props m n off []).1
  · intro m off n
    exact (rontLoop_props m n off []).2.1
  · intro m off n l h
    have := (rontLoop_props m n off []).2.2 l h
    simpa using this
  · intro m cur h
    unfold tableName
    rw [h]
  · intro m cur p h1 h2
    unfold tableName
    rw [h1]
    dsimp only
    rw [h2]
  · intro m count cur acc name hp ht
    have hnp : ¬ get_pointer_path m cur none = .error .panicked := by
      rw [hp]
      intro hc
      injection hc with hc2
      cases hc2
    simp only [rontLoop, if_neg hnp, ht, hp, nextStep]
    simp
  · intro m count cur nxt acc name hp ht
    have hnp : ¬ get_pointer_path m cur none = .error .panicked := by
      rw [hp]
      intro hc
      cases hc
    simp only [rontLoop, if_neg hnp, ht, hp, nextStep]
    simp

/-- Witness for C10: concrete instances of the length guarantee, both
empty-string substitutions, and both node-reuse paths. -/
theorem names_table_spec_witness :
    ([] : List Bytes).length = 0 ∧
    tableName memEmpty 5 = .ok [] ∧
    tableName memNamePtr 0x100 = .ok [] ∧
    rontLoop memEmpty (0 + 1) 5 [] = rontLoop memEmpty 0 5 ([] ++ [[]]) ∧
    rontLoop memNameNext (0 + 1) 0x100 [] =
      rontLoop memNameNext 0 (if 0 < 0 then 0 else 0x100) ([] ++ [[]]) :=
  ⟨names_table_spec.2.2.1 memEmpty 5 0 [] (by decide),
   names_table_spec.2.2.2.1 memEmpty 5 (by decide),
   names_table_spec.2.2.2.2.1 memNamePtr 0x100 0x200 (by decide) (by decide),
   names_table_spec.2.2.2.2.2.1 memEmpty 0 5 [] [] (by decide) (by decide),
   names_table_spec.2.2.2.2.2.2 memNameNext 0 0x100 0 [] [] (by decide) (by decide)⟩

end WalkOfLife
